import Mathlib

set_option maxRecDepth 8192

/-!
Verification of the header-dependency resolver (`src/analysis/header.rs`).

The development shallowly embeds the Rust module: `TreeNode` and its
constructors, the trace parser (`parse_dependency_tree`, `get_layer_child`),
the path normalizer (`TreeNode::get_clean_root`), the inclusion-graph
builder, the topological root resolver with cycle collapse
(`find_top_level_headers_with_cycles`, `find_cycle_nodes`), the
system-header extractor and the memoized entry points.

Modeling conventions:
- Rust `String` is Lean `String`; byte indices are character indices (all
  relevant inputs are ASCII).
- `HashMap`/`HashSet` are association lists / lists kept in insertion
  order; where the Rust code's behavior depends on the unspecified hash
  iteration order, the enumeration order is an explicit argument so that
  claims can be settled for concrete orders.
- Panics (`unwrap`, `expect`) are modeled by `Option`, `eyre::Result` by
  `Except String`.
- External effects (spawning `clang++`, reading the header directory) are
  inputs: each candidate header comes with the exit status and captured
  stderr of its trace invocation.
-/

namespace HeaderDep

/-- First index at which `pat` occurs as a contiguous sublist of `s`
(`str::find` for a substring pattern). -/
def findSubIdx (s pat : List Char) : Option Nat :=
  if pat.isPrefixOf s then some 0
  else
    match s with
    | [] => none
    | _ :: t => (findSubIdx t pat).map (· + 1)

/-- Worker for the embedding of Rust `str::replace(pat, rep)`: repeatedly
locate the first occurrence of `pat` in the remaining suffix and splice in
`rep`; matches are found left to right, non-overlapping.  The fuel argument
only bounds the recursion; a nonempty pattern consumes at least one
character per step, so fuel `s.length` never runs out. -/
def rustReplaceGo (pat rep : List Char) : Nat → List Char → List Char
  | 0, s => s
  | fuel + 1, s =>
    match findSubIdx s pat with
    | none => s
    | some i => s.take i ++ rep ++ rustReplaceGo pat rep fuel (s.drop (i + pat.length))

/-- Embedding of Rust `str::replace(pat, rep)`.  (Rust's behavior for the
empty pattern does not matter here: the only pattern used in the source is
`"./"`; for totality the empty pattern returns the input.) -/
def rustReplaceL (pat rep s : List Char) : List Char :=
  if pat.isEmpty then s else rustReplaceGo pat rep s.length s

/-- String-level wrapper for `rustReplaceL`. -/
def rustReplace (s pat rep : String) : String :=
  ⟨rustReplaceL pat.data rep.data s.data⟩

/-- Modelled from the spec: the claim's reading of the name cleanup — the
input with every occurrence of the substring `./` (occurrences of this
two-character pattern are automatically pairwise disjoint) deleted, in one
left-to-right scan of the supplied name. -/
def scanRemoveDotSlash : List Char → List Char
  | [] => []
  | c :: rest =>
    match rest with
    | [] => [c]
    | d :: r =>
      if c = '.' ∧ d = '/' then scanRemoveDotSlash r
      else c :: scanRemoveDotSlash (d :: r)

/-- The inclusion-tree node (`struct TreeNode` in the source). -/
structure TreeNode where
  name : String
  children : List TreeNode

/-- Embedding of `TreeNode::new`: the supplied name with `"./"` replaced by
the empty string, and no children. -/
def TreeNode.new (name : String) : TreeNode :=
  ⟨rustReplace name "./" "", []⟩

/-- Embedding of `TreeNode::new_invalid`. -/
def TreeNode.new_invalid : TreeNode := ⟨"invalid", []⟩

/-- Embedding of `TreeNode::is_invalid`. -/
def TreeNode.is_invalid (t : TreeNode) : Bool := t.name = "invalid"

/-- Attach children to a node (the `add_child` calls made after
`TreeNode::new` in `get_layer_child` and `parse_dependency_tree`). -/
def TreeNode.withChildren (t : TreeNode) (cs : List TreeNode) : TreeNode :=
  ⟨t.name, t.children ++ cs⟩

/-- Tests whether a list of characters starts with the character `c`. -/
def headIsChar (c : Char) : List Char → Bool
  | [] => false
  | d :: _ => d = c

/-- One node's renaming step inside `TreeNode::get_clean_root`: a name that
starts with the header-root path has that prefix stripped (the first
`unwrap` cannot fail, the prefix was just checked) and then a mandatory
leading '/' stripped; the second `unwrap` panics when the remainder does
not start with '/', modeled as `none`.  Names without the header-root
prefix are left unchanged. -/
def cleanName (includePath name : String) : Option String :=
  if includePath.data.isPrefixOf name.data then
    match name.data.drop includePath.data.length with
    | [] => none
    | c :: tail => if c = '/' then some ⟨tail⟩ else none
  else some name

mutual
/-- Embedding of `TreeNode::get_clean_root`.  The worklist traversal of the
source visits every node exactly once; it is modeled as structural
recursion — the visit order is irrelevant both to the renaming (each node
is renamed independently) and to whether a panic occurs.  `none` models a
panic. -/
def TreeNode.get_clean_root (includePath : String) : TreeNode → Option TreeNode
  | ⟨n, cs⟩ =>
    match cleanName includePath n with
    | none => none
    | some n2 =>
      match cleanRootList includePath cs with
      | none => none
      | some cs2 => some ⟨n2, cs2⟩

/-- Children traversal of `TreeNode::get_clean_root`. -/
def cleanRootList (includePath : String) : List TreeNode → Option (List TreeNode)
  | [] => some []
  | t :: ts =>
    match TreeNode.get_clean_root includePath t with
    | none => none
    | some t2 =>
      match cleanRootList includePath ts with
      | none => none
      | some ts2 => some (t2 :: ts2)
end
mutual
/-- All node names of a tree, root first. -/
def namesOf : TreeNode → List String
  | ⟨n, cs⟩ => n :: namesOfList cs

/-- All node names of a list of trees. -/
def namesOfList : List TreeNode → List String
  | [] => []
  | t :: ts => namesOf t ++ namesOfList ts
end
/-- Name on which the normalizer panics: it starts with the header-root
path, but the remainder after the prefix does not start with '/'. -/
def panicName (includePath name : String) : Bool :=
  includePath.data.isPrefixOf name.data &&
    !(headIsChar '/' (name.data.drop includePath.data.length))

/-- Whitespace trim of both ends of a string (Rust `str::trim`). -/
def trimChars (s : String) : String :=
  ⟨((s.data.dropWhile Char.isWhitespace).reverse.dropWhile Char.isWhitespace).reverse⟩

/-- Drop one trailing carriage return (Rust `str::lines` accepts CRLF). -/
def stripCR (l : List Char) : List Char :=
  match l.getLast? with
  | some c => if c = '\r' then l.dropLast else l
  | none => l

/-- Split a character list at newline characters. -/
def splitNl : List Char → List (List Char)
  | [] => [[]]
  | c :: rest =>
    if c = '\n' then [] :: splitNl rest
    else
      match splitNl rest with
      | [] => [[c]]
      | l :: ls => (c :: l) :: ls

/-- Embedding of Rust `str::lines`: split on newlines, striping one
trailing carriage return per line, without a final empty line for a
trailing terminator. -/
def rustLines (s : String) : List String :=
  let parts := splitNl s.data
  let parts := if parts.getLast? = some [] then parts.dropLast else parts
  parts.map (fun l => ⟨stripCR l⟩)

/-- Recognized header extensions in the parser (`.h`, `.hpp`, `.hxx`). -/
def hasHeaderExt (s : String) : Bool :=
  ".h".data.isSuffixOf s.data || ".hpp".data.isSuffixOf s.data ||
    ".hxx".data.isSuffixOf s.data

/-- Substring containment (Rust `str::contains`). -/
def containsSubstr (s pat : String) : Bool :=
  (findSubIdx s.data pat.data).isSome

/-- Offset of the first space in a line (Rust `line.find(' ')`). -/
def findSpace (line : String) : Option Nat :=
  line.data.findIdx? (fun c => c = ' ')

/-- One line of the `-H` trace, as processed by `parse_dependency_tree`'s
loop: the first space's offset is the nesting depth and the trimmed
remainder the path; a line with no space is a hard parse error; lines
mentioning `/usr/lib/` and lines without a recognized header extension are
filtered out (`ok none`). -/
def parseTraceLine (line : String) : Except String (Option (Nat × String)) :=
  match findSpace line with
  | none => .error ("Expect an spece in line: " ++ line)
  | some sep =>
    let header := trimChars ⟨line.data.drop sep⟩
    if containsSubstr header "/usr/lib/" then .ok none
    else if hasHeaderExt header then .ok (some (sep, header))
    else .ok none

/-- The line loop of `parse_dependency_tree`: accumulate `(depth, path)`
pairs in order, propagating the first malformed-line error. -/
def collectLayers : List String → Except String (List (Nat × String))
  | [] => .ok []
  | line :: rest =>
    match parseTraceLine line with
    | .error e => .error e
    | .ok none => collectLayers rest
    | .ok (some p) => (collectLayers rest).map (fun l => p :: l)

/-- The segmentation step of `get_layer_child`: scan the `(depth, path)`
pairs; each pair whose depth equals the target depth closes the previous
segment and starts a new one; finally the pending segment is appended and
empty segments are dropped (`retain`). -/
def getLayerSegments (l : List (Nat × String)) (depth : Nat) :
    List (List (Nat × String)) :=
  let step := l.foldl
    (fun (acc : List (List (Nat × String)) × List (Nat × String)) x =>
      if x.1 = depth then (acc.1 ++ [acc.2], [x]) else (acc.1, acc.2 ++ [x]))
    ([], [])
  (step.1 ++ [step.2]).filter (fun seg => !seg.isEmpty)

/-- Worker for `get_layer_child` with a recursion-depth fuel.  Every
segment of `l` is at most as long as `l` and nonempty, so each recursive
call operates on a strictly shorter pair list; with fuel `l.length + 1`
the fuel-0 branch is unreachable. -/
def getLayerChildGo : Nat → List (Nat × String) → Nat → List TreeNode
  | 0, _, _ => []
  | fuel + 1, l, depth =>
    (getLayerSegments l depth).map (fun seg =>
      match seg with
      | [] => TreeNode.new ""
      | root :: rest =>
        (TreeNode.new root.2).withChildren (getLayerChildGo fuel rest (depth + 1)))

/-- Embedding of `get_layer_child`. -/
def getLayerChild (l : List (Nat × String)) (depth : Nat) : List TreeNode :=
  getLayerChildGo (l.length + 1) l depth

/-- Embedding of `parse_dependency_tree`: collect the filtered
`(depth, path)` pairs from the trace text, then attach the reconstructed
depth-1 subtrees to a fresh root named by `base_name`. -/
def parse_dependency_tree (output base_name : String) : Except String TreeNode :=
  match collectLayers (rustLines output) with
  | .error e => .error e
  | .ok node_layer =>
    .ok ((TreeNode.new base_name).withChildren (getLayerChild node_layer 1))

/-- Line that the parser filters out without error: it has a space
separator, and its path part either mentions `/usr/lib/` or lacks a
recognized header extension. -/
def lineFilteredOut (line : String) : Bool :=
  match findSpace line with
  | none => false
  | some sep =>
    containsSubstr (trimChars ⟨line.data.drop sep⟩) "/usr/lib/" ||
      !(hasHeaderExt (trimChars ⟨line.data.drop sep⟩))

/-- Insert into a `HashSet`-modeled list when absent, keeping insertion
order. -/
def insertUnique (l : List String) (x : String) : List String :=
  if x ∈ l then l else l ++ [x]

mutual
/-- Embedding of `collect_all_headers`: every node name of the tree is
inserted into the set of known headers.  The source's worklist traversal
is modeled as a preorder traversal; the set's membership does not depend
on the visit order, only the insertion order of the list model does. -/
def collect_all_headers : TreeNode → List String → List String
  | ⟨n, cs⟩, acc => collectAllList cs (insertUnique acc n)

/-- Children traversal of `collect_all_headers`. -/
def collectAllList : List TreeNode → List String → List String
  | [], acc => acc
  | t :: ts, acc => collectAllList ts (collect_all_headers t acc)
end
/-- The inclusion graph: header name to the list of tree roots recorded as
including it (`HashMap<&str, HashSet<&str>>`, both modeled in insertion
order). -/
abbrev DepGraph := List (String × List String)

/-- Add `root` to the dependent set of `child` when `child` is a key of
the graph (`dependency_graph.get_mut(child_name)`: absent keys are
skipped). -/
def addDependent (g : DepGraph) (child root : String) : DepGraph :=
  g.map (fun e => if e.1 = child then (e.1, insertUnique e.2 root) else e)

mutual
/-- Embedding of `build_dependency_graph`: for every node of the tree and
every one of its children, the tree's root is recorded as a dependent of
that child.  (The source's worklist order only affects the insertion
order of dependents, not membership.) -/
def build_dependency_graph : TreeNode → String → DepGraph → DepGraph
  | ⟨_, cs⟩, root, g => buildDepList cs root g

/-- Children traversal of `build_dependency_graph`. -/
def buildDepList : List TreeNode → String → DepGraph → DepGraph
  | [], _, g => g
  | c :: cs, root, g =>
    buildDepList cs root (build_dependency_graph c root (addDependent g c.name root))
end
/-- In-degree table, in insertion order. -/
abbrev DegMap := List (String × Nat)

/-- The `in_degree.entry(dependent).or_insert(0) += 1` step. -/
def bumpDeg (m : DegMap) (k : String) : DegMap :=
  if m.any (fun e => e.1 = k) then
    m.map (fun e => if e.1 = k then (e.1, e.2 + 1) else e)
  else m ++ [(k, 1)]

/-- In-degree computation of `find_top_level_headers_with_cycles`: zero
for every known header, then one increment per dependent entry of the
graph. -/
def computeInDegree (g : DepGraph) (all : List String) : DegMap :=
  g.foldl (fun m e => e.2.foldl bumpDeg m) (all.map (fun h => (h, 0)))

/-- Lookup in the in-degree table (`in_degree.get_mut`). -/
def degLookup (m : DegMap) (k : String) : Option Nat :=
  match m.find? (fun e => e.1 = k) with
  | some e => some e.2
  | none => none

/-- Write-back of a decremented in-degree. -/
def degSet (m : DegMap) (k : String) (v : Nat) : DegMap :=
  m.map (fun e => if e.1 = k then (e.1, v) else e)

/-- Lookup of a header's dependents (`dependency_graph.get`). -/
def graphLookup (g : DepGraph) (k : String) : Option (List String) :=
  match g.find? (fun e => e.1 = k) with
  | some e => some e.2
  | none => none

/-- The Kahn queue loop of `find_top_level_headers_with_cycles`: pop a
header; skip it if already visited; otherwise mark it visited, append it
to the result, and decrement the in-degree of each of its dependents
(skipping keys absent from the table — `if let Some(degree)`), enqueueing
a dependent once its in-degree reaches zero and it is unvisited.  Returns
`(result, visited)`.  Fuel bounds the iteration count: every iteration
pops one element, each header is processed at most once and at most one
enqueue happens per recorded dependent entry, so the caller's fuel
(headers + graph entries + total dependents + 1) is never exhausted;
`Nat` subtraction stands in for the never-triggered `usize` underflow. -/
def kahnLoop (g : DepGraph) :
    Nat → List String → DegMap → List String → List String →
    List String × List String
  | 0, _, _, visited, result => (result, visited)
  | _ + 1, [], _, visited, result => (result, visited)
  | fuel + 1, h :: queue, deg, visited, result =>
    if h ∈ visited then kahnLoop g fuel queue deg visited result
    else
      let visited2 := visited ++ [h]
      let result2 := result ++ [h]
      match graphLookup g h with
      | none => kahnLoop g fuel queue deg visited2 result2
      | some deps =>
        let dq := deps.foldl
          (fun (dq : DegMap × List String) dep =>
            match degLookup dq.1 dep with
            | none => dq
            | some d =>
              let d2 := d - 1
              let m2 := degSet dq.1 dep d2
              if d2 = 0 ∧ dep ∉ visited2 then (m2, dq.2 ++ [dep])
              else (m2, dq.2))
          (deg, queue)
        kahnLoop g fuel dq.2 dq.1 visited2 result2

/-- Embedding of `find_cycle_nodes`: depth-first collection of every node
reachable along dependent edges from `start`, guarded by `temp_visited`.
The accumulator is `(cycle_nodes, temp_visited)`.  Fuel bounds the
recursion depth; every deeper level first inserts a fresh node into
`temp_visited`, so depth `headers + entries + dependents + 1` is never
reached. -/
def find_cycle_nodes (g : DepGraph) :
    Nat → String → List String × List String → List String × List String
  | 0, _, acc => acc
  | fuel + 1, start, acc =>
    if start ∈ acc.2 then acc
    else
      let acc2 := (acc.1 ++ [start], acc.2 ++ [start])
      match graphLookup g start with
      | none => acc2
      | some deps => deps.foldl (fun a dep => find_cycle_nodes g fuel dep a) acc2

/-- Lexicographic comparison on code points (the `Ord` used by
`cycle_nodes.sort()`; for the ASCII names involved this is Rust's byte
order). -/
def strLeChars : List Char → List Char → Bool
  | [], _ => true
  | _ :: _, [] => false
  | a :: ta, b :: tb => if a = b then strLeChars ta tb else decide (a < b)

/-- String-level lexicographic comparison. -/
def strLe (a b : String) : Bool := strLeChars a.data b.data

/-- Insertion into a sorted list. -/
def insertSortedStr (x : String) : List String → List String
  | [] => [x]
  | y :: ys => if strLe x y then x :: y :: ys else y :: insertSortedStr x ys

/-- Sorted copy of a list of names (`cycle_nodes.sort()`). -/
def sortStrs (l : List String) : List String := l.foldr insertSortedStr []

/-- The cycle-resolution pass of `find_top_level_headers_with_cycles`: for
every still-unvisited header, in the enumeration order `all` of the
header set, collect everything reachable along dependent edges, sort it,
and when the lexicographically smallest member has not yet been visited,
emit it as the representative and mark the whole collected set visited.
Accumulates `(visited, representatives)`. -/
def cyclePhase (g : DepGraph) (fuel : Nat) (all : List String)
    (visited : List String) : List String × List String :=
  all.foldl
    (fun (st : List String × List String) header =>
      if header ∈ st.1 then st
      else
        let cyc := (find_cycle_nodes g fuel header ([], [])).1
        match sortStrs cyc with
        | [] => st
        | rep :: _ =>
          if rep ∈ st.1 then st
          else (st.1 ++ cyc, st.2 ++ [rep]))
    (visited, [])

/-- Fuel sufficient for the Kahn loop and the cycle DFS on a graph. -/
def graphFuel (g : DepGraph) (all : List String) : Nat :=
  all.length + g.length + (g.map (fun e => e.2.length)).sum + 1

/-- Embedding of `find_top_level_headers_with_cycles`.  The enumeration
order `all` of the header set is an explicit argument: the Rust original
iterates hash containers whose order is unspecified; that same order
seeds the queue (iteration over `in_degree`, whose keys are inserted in
`all` order) and drives the cycle pass (iteration over `all_headers`). -/
def find_top_level_headers_with_cycles (g : DepGraph) (all : List String) :
    List String :=
  let deg := computeInDegree g all
  let seeds := (deg.filter (fun e => e.2 = 0)).map (fun e => e.1)
  let fuel := graphFuel g all
  let rv := kahnLoop g fuel seeds deg [] []
  let cyc := cyclePhase g fuel all rv.2
  rv.1 ++ cyc.2

/-- The header-name set of a forest, in first-visit order. -/
def allHeadersOf (trees : List TreeNode) : List String :=
  collectAllList trees []

/-- The inclusion graph of a forest: every known header starts with an
empty dependent set, then each tree's edges are merged
(`get_independent_headers`'s first three steps). -/
def buildFullGraph (trees : List TreeNode) : DepGraph :=
  (trees.foldl (fun g t => build_dependency_graph t t.name g)
    ((allHeadersOf trees).map (fun h => (h, []))))

/-- Embedding of `get_independent_headers` (the `Ok` value; the function
never returns an error).  This entry point enumerates the header set in
insertion order; the hash order of a concrete Rust run may be any
permutation of it. -/
def get_independent_headers (trees : List TreeNode) : List String :=
  find_top_level_headers_with_cycles (buildFullGraph trees) (allHeadersOf trees)

/-- Embedding of `is_a_lib_header`: names not starting with '/' are
library headers. -/
def is_a_lib_header (name : String) : Bool := !(headIsChar '/' name.data)

mutual
/-- Embedding of `get_included_sys_header`: walk the tree; for every
library-header node, record its direct children that are system headers
(absolute paths).  The worklist order is modeled as preorder; only the
order of the collected list, not its membership, depends on it. -/
def get_included_sys_header : TreeNode → List String
  | ⟨n, cs⟩ =>
    (if is_a_lib_header n then
      cs.filterMap (fun c => if is_a_lib_header c.name then none else some c.name)
    else []) ++ sysHeaderList cs

/-- Children traversal of `get_included_sys_header`. -/
def sysHeaderList : List TreeNode → List String
  | [] => []
  | t :: ts => get_included_sys_header t ++ sysHeaderList ts
end
/-- All indices at which `pat` occurs in `s`. -/
def occIdxs (s pat : List Char) : List Nat :=
  (List.range (s.length + 1)).filter (fun i => pat.isPrefixOf (s.drop i))

/-- Last occurrence of `pat` in `s` (Rust `str::rfind`). -/
def rfindSub (s pat : List Char) : Option Nat := (occIdxs s pat).getLast?

/-- The `header.rfind("/include/")` normalization in
`get_include_sys_headers`: keep only the suffix after the last
`/include/` segment; headers without such a segment are dropped. -/
def stripIncludePath (header : String) : Option String :=
  (rfindSub header.data "/include/".data).map
    (fun idx => ⟨header.data.drop (idx + "/include/".data.length)⟩)

/-- One system header's normalization-and-dedup step in
`get_include_sys_headers`: keep the suffix after the last `/include/`
segment (dropping paths without one) and append it unless already seen. -/
def pushSysHeader (acc : List String) (h : String) : List String :=
  match stripIncludePath h with
  | some rel => if rel ∈ acc then acc else acc ++ [rel]
  | none => acc

/-- One tree's contribution in `get_include_sys_headers`: only trees whose
root name is in the top-level header list contribute. -/
def pushTreeSysHeaders (header_strs : List String) (acc : List String)
    (t : TreeNode) : List String :=
  if t.name ∈ header_strs then (get_included_sys_header t).foldl pushSysHeader acc
  else acc

/-- The system-header accumulation of `get_include_sys_headers`: for every
tree whose root name is in the top-level header list, collect its system
headers, normalize each past the last `/include/` segment, and append
them first-seen unique. -/
def computeSysHeaders (trees : List TreeNode) (header_strs : List String) :
    List String :=
  trees.foldl (pushTreeSysHeaders header_strs) []

/-- Embedding of the computation inside `get_include_sys_headers` (the
value that the `OnceCell` caches on first call). -/
def get_include_sys_headers (trees : List TreeNode) : List String :=
  computeSysHeaders trees (get_independent_headers trees)

/-- Embedding of `get_include_lib_headers` over the (cached) forest. -/
def get_include_lib_headers (trees : List TreeNode) : List String :=
  get_independent_headers trees

/-- File extension in the sense of `Path::extension`: the part of the
last path component after its last dot, unless the component has no dot
or starts with its only dot. -/
def extOf (path : String) : Option String :=
  let comp := (path.data.reverse.takeWhile (fun c => c ≠ '/')).reverse
  match rfindSub comp ['.'] with
  | none => none
  | some 0 => none
  | some idx => some ⟨comp.drop (idx + 1)⟩

/-- Rust `str::strip_prefix` for string patterns. -/
def stripPfx (s p : String) : Option String :=
  if p.data.isPrefixOf s.data then some ⟨s.data.drop p.data.length⟩ else none

/-- Embedding of `Executor::extract_header_dependency`.  The `clang++`
invocation is external input: `success` is its exit status, `stderrOut`
the captured diagnostic stream.  A failed invocation yields the invalid
sentinel inside `Ok` — not an error; otherwise the trace is parsed with
the header's path relative to the header root, prefixed by `.`, as the
root name, and the tree is normalized.  `none` models the panics (the
`unwrap` on a header outside the root; a normalizer panic). -/
def extract_header_dependency (includePath header : String) (success : Bool)
    (stderrOut : String) : Option (Except String TreeNode) :=
  if !success then some (.ok TreeNode.new_invalid)
  else
    match stripPfx header includePath with
    | none => none
    | some rel =>
      let base_name := "." ++ rel
      match parse_dependency_tree stderrOut base_name with
      | .error e => some (.error e)
      | .ok tree =>
        match TreeNode.get_clean_root includePath tree with
        | none => none
        | some tree2 => some (.ok tree2)

/-- Embedding of the one-time initialization of `get_library_dep_trees`.
The directory listing is an input: one entry per candidate file with the
exit status and stderr of its trace invocation.  Files without an
`h`/`hpp`/`hxx` extension are skipped; a parse error from
`extract_header_dependency` reaches the `.unwrap()` and panics the whole
initialization (`none`); invalid sentinel trees are silently dropped. -/
def get_library_dep_trees (includePath : String)
    (files : List (String × Bool × String)) : Option (List TreeNode) :=
  files.foldl
    (fun acc f =>
      match acc with
      | none => none
      | some ts =>
        match extOf f.1 with
        | none => some ts
        | some e =>
          if e ≠ "h" ∧ e ≠ "hpp" ∧ e ≠ "hxx" then some ts
          else
            match extract_header_dependency includePath f.1 f.2.1 f.2.2 with
            | none => none
            | some (.error _) => none
            | some (.ok t) => if t.is_invalid then some ts else some (ts ++ [t]))
    (some [])

/-- Process-wide `OnceCell` cache state of `get_include_sys_headers`. -/
structure SysCacheState where
  cache : Option (List String)

/-- One call to `get_include_sys_headers`: on a hit the cached list is
returned unchanged; on a miss the list is computed — with whatever hash
enumeration order `ord` that run's maps happen to use inside
`find_top_level_headers_with_cycles` — and stored. -/
def callSysHeaders (trees : List TreeNode) (ord : List String)
    (st : SysCacheState) : List String × SysCacheState :=
  match st.cache with
  | some v => (v, st)
  | none =>
    let v := computeSysHeaders trees
      (find_top_level_headers_with_cycles (buildFullGraph trees) ord)
    (v, ⟨some v⟩)

/-- One call to `get_include_lib_headers`: there is no cache for the root
list, so the resolution is recomputed on every call with that call's hash
enumeration order (the forest itself is cached and fixed). -/
def callLibHeaders (trees : List TreeNode) (ord : List String) : List String :=
  find_top_level_headers_with_cycles (buildFullGraph trees) ord

/-- Names occurring anywhere strictly below a root of the forest — the
positions that give a header incoming inclusion edges. -/
def nonRootNamesOf (trees : List TreeNode) : List String :=
  (trees.map (fun t => namesOfList t.children)).flatten

theorem findSubIdx_bound (s pat : List Char) (i : Nat)
    (h : findSubIdx s pat = some i) : i + pat.length ≤ s.length := by
  induction s generalizing i with
  | nil =>
    unfold findSubIdx at h
    split at h
    · rename_i hp
      have hple := List.IsPrefix.length_le (List.isPrefixOf_iff_prefix.mp hp)
      simp only [Option.some.injEq] at h
      simp only [List.length_nil] at hple ⊢
      omega
    · simp at h
  | cons a t ih =>
    unfold findSubIdx at h
    split at h
    · rename_i hp
      have hple := List.IsPrefix.length_le (List.isPrefixOf_iff_prefix.mp hp)
      simp only [Option.some.injEq] at h
      simp only [List.length_cons] at hple ⊢
      omega
    · simp only [Option.map_eq_some'] at h
      obtain ⟨j, hj, rfl⟩ := h
      have := ih j hj
      simp only [List.length_cons]
      omega

theorem scan_of_findSubIdx_none (s : List Char)
    (h : findSubIdx s ['.', '/'] = none) : scanRemoveDotSlash s = s := by
  induction s with
  | nil => rfl
  | cons a t ih =>
    unfold findSubIdx at h
    split at h
    · simp at h
    · rename_i hp
      simp only [Option.map_eq_none'] at h
      have ht := ih h
      cases t with
      | nil => rfl
      | cons d r =>
        simp only [scanRemoveDotSlash]
        rw [if_neg, ht]
        rintro ⟨rfl, rfl⟩
        simp [List.isPrefixOf] at hp

theorem scan_split (s : List Char) (i : Nat)
    (h : findSubIdx s ['.', '/'] = some i) :
    scanRemoveDotSlash s = s.take i ++ scanRemoveDotSlash (s.drop (i + 2)) := by
  induction s generalizing i with
  | nil =>
    unfold findSubIdx at h
    simp [List.isPrefixOf] at h
  | cons a t ih =>
    unfold findSubIdx at h
    split at h
    · rename_i hp
      simp only [Option.some.injEq] at h
      subst h
      cases t with
      | nil => simp [List.isPrefixOf] at hp
      | cons d r =>
        simp only [List.isPrefixOf, List.isPrefixOf_nil_left, Bool.and_true,
          Bool.and_eq_true, beq_iff_eq] at hp
        obtain ⟨rfl, rfl⟩ := hp
        simp [scanRemoveDotSlash]
    · rename_i hp
      simp only [Option.map_eq_some'] at h
      obtain ⟨j, hj, rfl⟩ := h
      have ht := ih j hj
      cases t with
      | nil =>
        unfold findSubIdx at hj
        simp [List.isPrefixOf] at hj
      | cons d r =>
        have hne : ¬(a = '.' ∧ d = '/') := by
          rintro ⟨rfl, rfl⟩
          simp [List.isPrefixOf] at hp
        simp only [scanRemoveDotSlash]
        rw [if_neg hne, ht]
        simp only [List.take_succ_cons, List.cons_append, List.cons.injEq, true_and]
        have harith : j + 1 + 2 = (j + 2) + 1 := by omega
        rw [harith]
        simp [List.drop_succ_cons]

theorem rustReplaceGo_eq_scan (fuel : Nat) (s : List Char) (hs : s.length ≤ fuel) :
    rustReplaceGo ['.', '/'] [] fuel s = scanRemoveDotSlash s := by
  induction fuel generalizing s with
  | zero =>
    have hsz : s = [] := List.eq_nil_of_length_eq_zero (Nat.le_zero.mp hs)
    subst hsz; rfl
  | succ fuel ih =>
    simp only [rustReplaceGo]
    cases hf : findSubIdx s ['.', '/'] with
    | none => rw [scan_of_findSubIdx_none s hf]
    | some i =>
      have hb := findSubIdx_bound s ['.', '/'] i hf
      simp only [List.length_cons, List.length_nil] at hb
      rw [scan_split s i hf]
      have hlen : (s.drop (i + 2)).length ≤ fuel := by
        simp only [List.length_drop]
        omega
      have := ih (s.drop (i + 2)) hlen
      simp only [List.length_cons, List.length_nil, List.nil_append, List.append_assoc]
      rw [show i + (0 + 1 + 1) = i + 2 by omega]
      rw [this]

theorem rustReplaceL_dotSlash (s : List Char) :
    rustReplaceL ['.', '/'] [] s = scanRemoveDotSlash s := by
  have hne : (['.', '/'] : List Char).isEmpty = false := rfl
  simp only [rustReplaceL, hne, Bool.false_eq_true, if_false]
  exact rustReplaceGo_eq_scan s.length s le_rfl

/-- C9: `TreeNode::new` deletes every occurrence of the substring `"./"`
anywhere in the supplied name (occurrences of this two-character pattern
are pairwise disjoint, so one left-to-right scan removes each of them),
not only a leading `"./"`; in particular a name containing `a./b.h`
becomes `ab.h`. -/
theorem c9_treenode_new_removes_every_dot_slash :
    (∀ name : String, (TreeNode.new name).name = ⟨scanRemoveDotSlash name.data⟩) ∧
    (TreeNode.new "a./b.h").name = "ab.h" := by
  constructor
  · intro name
    show String.mk (rustReplaceL ['.', '/'] [] name.data) = _
    rw [rustReplaceL_dotSlash]
  · rfl

/-- Witness for C9: the general statement applied at a concrete name with
two interior occurrences of the pattern. -/
theorem c9_treenode_new_removes_every_dot_slash_witness :
    (TreeNode.new "x./y./z.h").name = ⟨scanRemoveDotSlash "x./y./z.h".data⟩ :=
  c9_treenode_new_removes_every_dot_slash.1 "x./y./z.h"

theorem cleanName_eq_none_iff (p n : String) :
    cleanName p n = none ↔ panicName p n = true := by
  unfold cleanName panicName
  split
  · rename_i hp
    cases hd : n.data.drop p.data.length with
    | nil => simp [hp, headIsChar, hd]
    | cons c tail =>
      by_cases hc : c = '/' <;> simp [hp, headIsChar, hd, hc]
  · rename_i hp
    simp only [Bool.and_eq_true, Bool.not_eq_true'] at hp ⊢
    simp [hp]

mutual
theorem get_clean_root_none_iff (p : String) (t : TreeNode) :
    TreeNode.get_clean_root p t = none ↔
      ∃ n ∈ namesOf t, panicName p n = true := by
  cases t with
  | mk n cs =>
    cases hc : cleanName p n with
    | none =>
      have hn := (cleanName_eq_none_iff p n).mp hc
      simp only [TreeNode.get_clean_root, hc, namesOf]
      exact iff_of_true (by trivial) ⟨n, List.mem_cons_self n _, hn⟩
    | some n2 =>
      have hn : ¬ panicName p n = true := by
        rw [← cleanName_eq_none_iff, hc]; simp
      cases hcl : cleanRootList p cs with
      | none =>
        obtain ⟨m, hm, hpm⟩ := (cleanRootList_none_iff p cs).mp hcl
        simp only [TreeNode.get_clean_root, hc, hcl, namesOf]
        exact iff_of_true (by trivial) ⟨m, List.mem_cons_of_mem n hm, hpm⟩
      | some cs2 =>
        simp only [TreeNode.get_clean_root, hc, hcl, namesOf]
        constructor
        · intro hcontra; simp at hcontra
        · rintro ⟨m, hm, hpm⟩
          rcases List.mem_cons.mp hm with rfl | hm
          · exact absurd hpm hn
          · have : cleanRootList p cs = none :=
              (cleanRootList_none_iff p cs).mpr ⟨m, hm, hpm⟩
            rw [hcl] at this; cases this

theorem cleanRootList_none_iff (p : String) (ts : List TreeNode) :
    cleanRootList p ts = none ↔
      ∃ n ∈ namesOfList ts, panicName p n = true := by
  cases ts with
  | nil =>
    simp [cleanRootList, namesOfList]
  | cons t ts =>
    cases hc : TreeNode.get_clean_root p t with
    | none =>
      obtain ⟨m, hm, hpm⟩ := (get_clean_root_none_iff p t).mp hc
      simp only [cleanRootList, hc, namesOfList]
      exact iff_of_true (by trivial) ⟨m, List.mem_append_left _ hm, hpm⟩
    | some t2 =>
      cases hcl : cleanRootList p ts with
      | none =>
        obtain ⟨m, hm, hpm⟩ := (cleanRootList_none_iff p ts).mp hcl
        simp only [cleanRootList, hc, hcl, namesOfList]
        exact iff_of_true (by trivial) ⟨m, List.mem_append_right _ hm, hpm⟩
      | some ts2 =>
        simp only [cleanRootList, hc, hcl, namesOfList]
        constructor
        · intro hcontra; simp at hcontra
        · rintro ⟨m, hm, hpm⟩
          rcases List.mem_append.mp hm with hm | hm
          · have : TreeNode.get_clean_root p t = none :=
              (get_clean_root_none_iff p t).mpr ⟨m, hm, hpm⟩
            rw [hc] at this; cases this
          · have : cleanRootList p ts = none :=
              (cleanRootList_none_iff p ts).mpr ⟨m, hm, hpm⟩
            rw [hcl] at this; cases this
end
theorem parseTraceLine_of_filteredOut (line : String)
    (h : lineFilteredOut line = true) : parseTraceLine line = .ok none := by
  unfold lineFilteredOut at h
  unfold parseTraceLine
  cases hf : findSpace line with
  | none => rw [hf] at h; cases h
  | some sep =>
    rw [hf] at h
    simp only [Bool.or_eq_true, Bool.not_eq_true'] at h
    rcases h with h | h
    · simp [h]
    · by_cases hc : containsSubstr (trimChars ⟨line.data.drop sep⟩) "/usr/lib/" = true
      · simp [hc]
      · simp [hc, h]

theorem collectLayers_ok_nil (lines : List String)
    (h : ∀ line ∈ lines, parseTraceLine line = .ok none) :
    collectLayers lines = .ok [] := by
  induction lines with
  | nil => rfl
  | cons line rest ih =>
    have h1 := h line (List.mem_cons_self line rest)
    unfold collectLayers
    rw [h1]
    exact ih (fun l hl => h l (List.mem_cons_of_mem line hl))

/-- C8: when every trace line has a space separator and, after the
filtering pass, no line matches a recognized header extension (each line
either mentions `/usr/lib/` or lacks a `.h`/`.hpp`/`.hxx` suffix),
`parse_dependency_tree` succeeds — it is not an error — and returns a tree
consisting of the root node only, with no children. -/
theorem c8_all_lines_filtered_gives_root_only (output base_name : String)
    (h : ∀ line ∈ rustLines output, lineFilteredOut line = true) :
    parse_dependency_tree output base_name = .ok (TreeNode.new base_name) := by
  unfold parse_dependency_tree
  rw [collectLayers_ok_nil (rustLines output)
    (fun l hl => parseTraceLine_of_filteredOut l (h l hl))]
  rfl

/-- Witness for C8 on a concrete two-line trace: a line without a header
extension and a `/usr/lib/` line; parsing succeeds with a childless root. -/
theorem c8_all_lines_filtered_gives_root_only_witness :
    (∀ line ∈ rustLines "1 foo.txt\n2 /usr/lib/x.h", lineFilteredOut line = true) ∧
    parse_dependency_tree "1 foo.txt\n2 /usr/lib/x.h" "./a.h" =
      .ok (TreeNode.new "./a.h") :=
  ⟨by decide, c8_all_lines_filtered_gives_root_only "1 foo.txt\n2 /usr/lib/x.h"
    "./a.h" (by decide)⟩

/-- C10: the normalizer `TreeNode::get_clean_root` panics exactly when some
node name in the tree starts with the library header-root path without the
character immediately following that prefix being '/'; equivalently, it
terminates without panic precisely under the precondition that every node
name starting with the header-root prefix continues with a path
separator. -/
theorem c10_get_clean_root_panic_iff (includePath : String) (t : TreeNode) :
    TreeNode.get_clean_root includePath t = none ↔
      ∃ n ∈ namesOf t, panicName includePath n = true :=
  get_clean_root_none_iff includePath t

/-- Witness for C10 at a concrete tree: the name `/include.h` starts with
the header root `/inc` but continues with 'l', so normalization panics. -/
theorem c10_get_clean_root_panic_iff_witness :
    TreeNode.get_clean_root "/inc" ⟨"/include.h", []⟩ = none :=
  (c10_get_clean_root_panic_iff "/inc" ⟨"/include.h", []⟩).mpr (by decide)

mutual
theorem get_included_sys_header_absolute (t : TreeNode) :
    ∀ p ∈ get_included_sys_header t, is_a_lib_header p = false := by
  cases t with
  | mk n cs =>
    intro p hp
    simp only [get_included_sys_header] at hp
    rcases List.mem_append.mp hp with hp | hp
    · split at hp
      · obtain ⟨c, hc, hcp⟩ := List.mem_filterMap.mp hp
        by_cases hlib : is_a_lib_header c.name = true
        · rw [if_pos hlib] at hcp; cases hcp
        · rw [if_neg hlib] at hcp
          simp only [Option.some.injEq] at hcp
          subst hcp
          simpa using hlib
      · simp at hp
    · exact sysHeaderList_absolute cs p hp

theorem sysHeaderList_absolute (ts : List TreeNode) :
    ∀ p ∈ sysHeaderList ts, is_a_lib_header p = false := by
  cases ts with
  | nil => intro p hp; simp [sysHeaderList] at hp
  | cons t ts =>
    intro p hp
    simp only [sysHeaderList] at hp
    rcases List.mem_append.mp hp with hp | hp
    · exact get_included_sys_header_absolute t p hp
    · exact sysHeaderList_absolute ts p hp
end
theorem pushSysHeader_fold_nodup (ps : List String) (acc : List String)
    (h : acc.Nodup) : (ps.foldl pushSysHeader acc).Nodup := by
  induction ps generalizing acc with
  | nil => exact h
  | cons p ps ih =>
    simp only [List.foldl_cons]
    apply ih
    unfold pushSysHeader
    cases hs : stripIncludePath p with
    | none => exact h
    | some rel =>
      show (if rel ∈ acc then acc else acc ++ [rel]).Nodup
      by_cases hm : rel ∈ acc
      · simpa [hm] using h
      · rw [if_neg hm]
        simp [List.nodup_append, h, hm]

theorem pushSysHeader_fold_mem (ps : List String) (acc : List String)
    (s : String) (h : s ∈ ps.foldl pushSysHeader acc) :
    s ∈ acc ∨ ∃ p ∈ ps, stripIncludePath p = some s := by
  induction ps generalizing acc with
  | nil => exact Or.inl h
  | cons p ps ih =>
    simp only [List.foldl_cons] at h
    rcases ih (pushSysHeader acc p) h with hmem | ⟨q, hq, hsq⟩
    · unfold pushSysHeader at hmem
      cases hs : stripIncludePath p with
      | none => rw [hs] at hmem; exact Or.inl hmem
      | some rel =>
        rw [hs] at hmem
        have hmem2 : s ∈ (if rel ∈ acc then acc else acc ++ [rel]) := hmem
        by_cases hm : rel ∈ acc
        · rw [if_pos hm] at hmem2; exact Or.inl hmem2
        · rw [if_neg hm] at hmem2
          rcases List.mem_append.mp hmem2 with hmem | hmem
          · exact Or.inl hmem
          · have hsr : s = rel := List.mem_singleton.mp hmem
            subst hsr
            exact Or.inr ⟨p, List.mem_cons_self p ps, hs⟩
    · exact Or.inr ⟨q, List.mem_cons_of_mem p hq, hsq⟩

theorem sysFold_nodup (trees : List TreeNode) (strs acc : List String)
    (h : acc.Nodup) : (trees.foldl (pushTreeSysHeaders strs) acc).Nodup := by
  induction trees generalizing acc with
  | nil => exact h
  | cons t ts ih =>
    simp only [List.foldl_cons]
    apply ih
    unfold pushTreeSysHeaders
    split
    · exact pushSysHeader_fold_nodup _ acc h
    · exact h

theorem sysFold_mem (trees : List TreeNode) (strs acc : List String)
    (s : String) (h : s ∈ trees.foldl (pushTreeSysHeaders strs) acc) :
    s ∈ acc ∨ ∃ t ∈ trees, t.name ∈ strs ∧
      ∃ p ∈ get_included_sys_header t, stripIncludePath p = some s := by
  induction trees generalizing acc with
  | nil => exact Or.inl h
  | cons t ts ih =>
    simp only [List.foldl_cons] at h
    rcases ih (pushTreeSysHeaders strs acc t) h with hmem | ⟨u, hu, hn, p, hp, hps⟩
    · unfold pushTreeSysHeaders at hmem
      by_cases hname : t.name ∈ strs
      · rw [if_pos hname] at hmem
        rcases pushSysHeader_fold_mem _ acc s hmem with hmem | ⟨p, hp, hps⟩
        · exact Or.inl hmem
        · exact Or.inr ⟨t, List.mem_cons_self t ts, hname, p, hp, hps⟩
      · rw [if_neg hname] at hmem
        exact Or.inl hmem
    · exact Or.inr ⟨u, List.mem_cons_of_mem t hu, hn, p, hp, hps⟩

/-- C5: the system-header list has no duplicates (it is deduplicated in
first-seen order by construction), and every element is the suffix
following the last `/include/` segment of a system header's absolute path
— a name starting with '/', collected as the direct system child of a
library-header node beneath a contributing top-level tree.  In particular
the list contains no project-relative path. -/
theorem c5_sys_headers_nodup_and_from_absolute_paths (trees : List TreeNode) :
    (get_include_sys_headers trees).Nodup ∧
    ∀ s ∈ get_include_sys_headers trees,
      ∃ t ∈ trees, t.name ∈ get_independent_headers trees ∧
        ∃ p ∈ get_included_sys_header t,
          is_a_lib_header p = false ∧ stripIncludePath p = some s := by
  constructor
  · exact sysFold_nodup trees _ [] List.nodup_nil
  · intro s hs
    rcases sysFold_mem trees _ [] s hs with h | ⟨t, ht, hname, p, hp, hps⟩
    · simp at h
    · exact ⟨t, ht, hname, p, hp, get_included_sys_header_absolute t p hp, hps⟩

/-- Witness for C5 on the concrete two-header forest of the C1 scenario:
the theorem applied there yields the no-duplicates fact. -/
theorem c5_sys_headers_nodup_and_from_absolute_paths_witness :
    (get_include_sys_headers
      [⟨"a.h", [⟨"/usr/include/stddef.h", []⟩]⟩,
       ⟨"b.h", [⟨"a.h", [⟨"/usr/include/stddef.h", []⟩]⟩]⟩]).Nodup :=
  (c5_sys_headers_nodup_and_from_absolute_paths
    [⟨"a.h", [⟨"/usr/include/stddef.h", []⟩]⟩,
     ⟨"b.h", [⟨"a.h", [⟨"/usr/include/stddef.h", []⟩]⟩]⟩]).1

/-- C1 (code defect): in the two-header scenario — `a.h` includes only the
system header `/usr/include/stddef.h`, and `b.h` includes `a.h` —
resolving top-level headers does not return `["b.h"]`: the Kahn loop of
`find_top_level_headers_with_cycles` appends every dequeued vertex to the
result, so all three graph vertices, including `a.h` (in-degree one) and
the absolute system path, are returned (here in the leaves-first order of
the insertion enumeration; every hash order yields the same three-element
set).  The system-header list is `["stddef.h"]`, as stated. -/
theorem c1_resolver_returns_all_vertices :
    get_independent_headers
        [⟨"a.h", [⟨"/usr/include/stddef.h", []⟩]⟩,
         ⟨"b.h", [⟨"a.h", [⟨"/usr/include/stddef.h", []⟩]⟩]⟩] =
      ["/usr/include/stddef.h", "a.h", "b.h"] ∧
    get_independent_headers
        [⟨"a.h", [⟨"/usr/include/stddef.h", []⟩]⟩,
         ⟨"b.h", [⟨"a.h", [⟨"/usr/include/stddef.h", []⟩]⟩]⟩] ≠ ["b.h"] ∧
    get_include_sys_headers
        [⟨"a.h", [⟨"/usr/include/stddef.h", []⟩]⟩,
         ⟨"b.h", [⟨"a.h", [⟨"/usr/include/stddef.h", []⟩]⟩]⟩] =
      ["stddef.h"] := by
  refine ⟨rfl, by decide, rfl⟩

/-- C2 counterexample: `b.h` and `c.h` mutually include one another (each
one's trace tree contains the other), and `a.h` — lexicographically
smaller than both — includes `b.h`.  The dependent-edge scan from any
cycle member also collects `a.h`; the minimum of the collected set is
therefore `a.h`, which is (or becomes) visited, so the guard suppresses
emission and no member of the cycle `{b.h, c.h}` appears: the result is
exactly `["a.h"]`, under every one of the six possible enumeration
orders. -/
theorem c2_cycle_without_representative :
    get_independent_headers
        [⟨"a.h", [⟨"b.h", [⟨"c.h", []⟩]⟩]⟩, ⟨"b.h", [⟨"c.h", []⟩]⟩,
         ⟨"c.h", [⟨"b.h", []⟩]⟩] = ["a.h"] ∧
    ([["a.h", "b.h", "c.h"], ["a.h", "c.h", "b.h"], ["b.h", "a.h", "c.h"],
        ["b.h", "c.h", "a.h"], ["c.h", "a.h", "b.h"], ["c.h", "b.h", "a.h"]].map
      (fun ord =>
        find_top_level_headers_with_cycles
          (buildFullGraph
            [⟨"a.h", [⟨"b.h", [⟨"c.h", []⟩]⟩]⟩, ⟨"b.h", [⟨"c.h", []⟩]⟩,
             ⟨"c.h", [⟨"b.h", []⟩]⟩]) ord)) =
      [["a.h"], ["a.h"], ["a.h"], ["a.h"], ["a.h"], ["a.h"]] := by
  refine ⟨rfl, by decide⟩

/-- C2 amended: in the pure 2-cycle — `x.h` includes `y.h`, `y.h`
includes `x.h`, no other headers — exactly one member of the cycle, the
lexicographically smallest `x.h`, appears, and the result is `["x.h"]`
under both possible enumeration orders.  (The general per-cycle
exactly-one claim fails when a lexicographically smaller header outside
the cycle reaches it, see the counterexample.) -/
theorem c2_amended_two_cycle_representative :
    get_independent_headers
        [⟨"x.h", [⟨"y.h", []⟩]⟩, ⟨"y.h", [⟨"x.h", []⟩]⟩] = ["x.h"] ∧
    ([["x.h", "y.h"], ["y.h", "x.h"]].map
      (fun ord =>
        find_top_level_headers_with_cycles
          (buildFullGraph [⟨"x.h", [⟨"y.h", []⟩]⟩, ⟨"y.h", [⟨"x.h", []⟩]⟩])
          ord)) = [["x.h"], ["x.h"]] := by
  refine ⟨rfl, by decide⟩

/-- C3 (code defect): a trace line with no space separator makes
`parse_dependency_tree` return a hard error for that one header — but the
`.unwrap()` inside `get_library_dep_trees` then panics the whole library
initialization: with a well-formed header and a malformed one, the result
is a panic (`none`), not a forest containing the well-formed header's
tree; the same listing without the malformed header succeeds. -/
theorem c3_malformed_line_panics_resolution :
    parse_dependency_tree "nospace" "./bad.h" =
      .error "Expect an spece in line: nospace" ∧
    get_library_dep_trees "/inc"
      [("/inc/good.h", true, ". ./dep.h"), ("/inc/bad.h", true, "nospace")] =
      none ∧
    get_library_dep_trees "/inc" [("/inc/good.h", true, ". ./dep.h")] =
      some [⟨"good.h", [⟨"dep.h", []⟩]⟩] := by
  refine ⟨rfl, rfl, rfl⟩

/-- C4 (code defect): `z.h` is project-relative and has in-degree zero in
the inclusion graph (it occurs below no root), yet under the hash
enumeration order that visits `b.h` before `z.h`, the cycle pass's scan
from `b.h` collects `{b.h, z.h, c.h}`, emits only `b.h`, and marks `z.h`
visited — so `z.h` never appears in the resolver's result. -/
theorem c4_indegree_zero_header_dropped :
    "z.h" ∉ nonRootNamesOf
        [⟨"z.h", [⟨"b.h", [⟨"c.h", []⟩]⟩]⟩, ⟨"b.h", [⟨"c.h", []⟩]⟩,
         ⟨"c.h", [⟨"b.h", []⟩]⟩] ∧
    is_a_lib_header "z.h" = true ∧
    (allHeadersOf
        [⟨"z.h", [⟨"b.h", [⟨"c.h", []⟩]⟩]⟩, ⟨"b.h", [⟨"c.h", []⟩]⟩,
         ⟨"c.h", [⟨"b.h", []⟩]⟩]).Perm ["b.h", "z.h", "c.h"] ∧
    find_top_level_headers_with_cycles
        (buildFullGraph
          [⟨"z.h", [⟨"b.h", [⟨"c.h", []⟩]⟩]⟩, ⟨"b.h", [⟨"c.h", []⟩]⟩,
           ⟨"c.h", [⟨"b.h", []⟩]⟩]) ["b.h", "z.h", "c.h"] = ["b.h"] := by
  decide

/-- C6 (code defect): a header whose compiler invocation exits non-zero
yields the invalid sentinel inside `Ok` — no error — and its tree is
dropped from the forest; but the header is not excluded from every
output: because the resolver returns every graph vertex, the failed
header `a.h`, referenced in the surviving header's trace, still appears
in the top-level header list. -/
theorem c6_failed_header_not_fully_excluded :
    extract_header_dependency "/inc" "/inc/a.h" false "some clang error" =
      some (.ok TreeNode.new_invalid) ∧
    get_library_dep_trees "/inc"
      [("/inc/a.h", false, "some clang error"), ("/inc/b.h", true, ". ./a.h")] =
      some [⟨"b.h", [⟨"a.h", []⟩]⟩] ∧
    "a.h" ∈ get_include_lib_headers [⟨"b.h", [⟨"a.h", []⟩]⟩] := by
  refine ⟨rfl, rfl, by decide⟩

/-- C7 counterexample: `get_include_lib_headers` recomputes the root
resolution on every call, and its result depends on the hash enumeration
order of that call's fresh maps: over the same cached forest, the
enumeration starting at `z.h` returns `["z.h", "b.h"]` while the one
starting at `b.h` returns `["b.h"]` — two calls in one process need not
return identical sequences. -/
theorem c7_lib_headers_vary_with_hash_order :
    (allHeadersOf
        [⟨"z.h", [⟨"b.h", [⟨"c.h", []⟩]⟩]⟩, ⟨"b.h", [⟨"c.h", []⟩]⟩,
         ⟨"c.h", [⟨"b.h", []⟩]⟩]).Perm ["b.h", "z.h", "c.h"] ∧
    callLibHeaders
        [⟨"z.h", [⟨"b.h", [⟨"c.h", []⟩]⟩]⟩, ⟨"b.h", [⟨"c.h", []⟩]⟩,
         ⟨"c.h", [⟨"b.h", []⟩]⟩] ["z.h", "b.h", "c.h"] = ["z.h", "b.h"] ∧
    callLibHeaders
        [⟨"z.h", [⟨"b.h", [⟨"c.h", []⟩]⟩]⟩, ⟨"b.h", [⟨"c.h", []⟩]⟩,
         ⟨"c.h", [⟨"b.h", []⟩]⟩] ["b.h", "z.h", "c.h"] = ["b.h"] := by
  decide

/-- C7 amended: `get_include_sys_headers` is memoized by a `OnceCell`;
after the first call computed the list (under whatever enumeration order
its maps used), every later call — even one whose fresh maps would
enumerate differently — returns the identical cached sequence.
`get_include_lib_headers`, by contrast, has no such cache, and only its
underlying forest is fixed (see the counterexample). -/
theorem c7_amended_sys_headers_cached (trees : List TreeNode)
    (ord1 ord2 : List String) :
    (callSysHeaders trees ord2 (callSysHeaders trees ord1 ⟨none⟩).2).1 =
      (callSysHeaders trees ord1 ⟨none⟩).1 := rfl

/-- Witness for the amended C7 on the concrete forest whose lib-header
list does vary: the system-header list is nevertheless identical across
the two calls. -/
theorem c7_amended_sys_headers_cached_witness :
    (callSysHeaders
        [⟨"z.h", [⟨"b.h", [⟨"c.h", []⟩]⟩]⟩, ⟨"b.h", [⟨"c.h", []⟩]⟩,
         ⟨"c.h", [⟨"b.h", []⟩]⟩] ["b.h", "z.h", "c.h"]
        (callSysHeaders
          [⟨"z.h", [⟨"b.h", [⟨"c.h", []⟩]⟩]⟩, ⟨"b.h", [⟨"c.h", []⟩]⟩,
           ⟨"c.h", [⟨"b.h", []⟩]⟩] ["z.h", "b.h", "c.h"] ⟨none⟩).2).1 =
      (callSysHeaders
        [⟨"z.h", [⟨"b.h", [⟨"c.h", []⟩]⟩]⟩, ⟨"b.h", [⟨"c.h", []⟩]⟩,
         ⟨"c.h", [⟨"b.h", []⟩]⟩] ["z.h", "b.h", "c.h"] ⟨none⟩).1 :=
  c7_amended_sys_headers_cached
    [⟨"z.h", [⟨"b.h", [⟨"c.h", []⟩]⟩]⟩, ⟨"b.h", [⟨"c.h", []⟩]⟩,
     ⟨"c.h", [⟨"b.h", []⟩]⟩] ["z.h", "b.h", "c.h"] ["b.h", "z.h", "c.h"]

end HeaderDep

